import Mathlib

/-!
Verification of the `static_probe_map` language-model hash table
(include/lm/static_probe_map.h): a fixed-capacity, open-addressing map
from hashed token sequences to packed (probability, backoff) float pairs.

The repository provides the class header with two inline template members
(the iterator-pair `find` and the iterator-pair `hash`); the out-of-line
member bodies (constructor, `insert`, `find(token_list)`, `find_hash`,
`hash(token_list)`) and the `util::murmur_hash` internals are modelled
from the specification, as marked on each definition.

Machine integers are modelled as `Nat` reduced modulo `2^64` (hash state,
storage words) and `2^32` (float bit patterns); 32-bit floats appear only
as their bit patterns, which is exactly the bit-for-bit contract of the
value codec.
-/

set_option maxHeartbeats 1000000

namespace LM

/-- Word size of the hash state and of a storage word: 64 bits. -/
def wordMod : Nat := 2 ^ 64

/-- Size of a packed float bit pattern: 32 bits. -/
def floatMod : Nat := 2 ^ 32

/-- Fixed class-wide hashing seed, from the header:
`static constexpr uint64_t seed_ = 0x2bedf99b3aa222d9`. -/
def seed_ : Nat := 0x2bedf99b3aa222d9

/-- Modelled from the spec: the internals of `util::murmur_hash` are not in
src/. Section 4.1 asks for a Murmur-family mixing step folding one 64-bit
value into the 64-bit hash state; this is one such multiply-xor-multiply
step, reduced modulo 2^64. The claims never depend on the concrete mixing
arithmetic, only on the fold structure visible in the header. -/
def hash_append (h x : Nat) : Nat :=
  ((h ^^^ (x * 0xc6a4a7935bd1e995 % wordMod)) * 0xc6a4a7935bd1e995) % wordMod

/-- The `for (; begin != end; ++begin) hash_append(hasher, *begin);` loop of
the header's template `hash(begin, end)`: consume the element range in
order, threading the hash state. -/
def hashLoop : Nat → List Nat → Nat
  | h, [] => h
  | h, x :: xs => hashLoop (hash_append h x) xs

/-- The header's inline template `hash(ForwardIterator begin, end)`:
initialize the hasher with `seed_`, take `dist = std::distance(begin, end)`,
fold every element in, then fold in `dist`, and convert the state to a
64-bit value (the conversion is modelled as the identity on the state,
which is already reduced modulo 2^64). The element range is embedded as
the list of values an iterator pair traverses. -/
def hashIter (tokens : List Nat) : Nat :=
  let dist := tokens.length
  let hasher := hashLoop seed_ tokens
  hash_append hasher dist

/-- Token sequence key (`lm::token_list`): an ordered list of integer token
identifiers; only iteration over it is used by the map. -/
structure token_list where
  tokens : List Nat
deriving DecidableEq, Repr

/-- Modelled from the spec: the body of `static_probe_map::hash(const
token_list&)` is not in src/ (the header calls it a helper to create the
hasher and hash the token list). Per section 4.1 it folds every element of
the sequence into the seeded hash in order and then folds in the length. -/
def hash (key : token_list) : Nat :=
  hash_append (key.tokens.foldl hash_append seed_) key.tokens.length

/-- Modelled from the spec: the value codec (section 4.2) packs the
probability bit pattern into the high 32 bits of a 64-bit storage word and
the backoff bit pattern into the low 32 bits, bit for bit. -/
def pack (prob backoff : Nat) : Nat :=
  (prob % floatMod) * floatMod + backoff % floatMod

/-- Language-model node (`lm::lm_node`): the (probability, backoff) pair a
lookup returns, as 32-bit float bit patterns. -/
structure lm_node where
  prob : Nat
  backoff : Nat
deriving DecidableEq, Repr

/-- Modelled from the spec: unpacking a storage word back into the
(probability, backoff) pair, inverse of `pack`. -/
def unpack (word : Nat) : lm_node :=
  ⟨word / floatMod % floatMod, word % floatMod⟩

/-- One table slot: empty (the reserved sentinel), or the stored key hash
together with the packed value word. The header documents that the
`uint64_t` hash of each key is stored; the sentinel is modelled as `none`,
which section 4.2 allows (occupancy tracked separately from value bits). -/
abbrev Slot : Type := Option (Nat × Nat)

/-- The backing storage (`util::disk_vector<uint64_t> table_`): a
fixed-capacity sequence of slots, capacity fixed at construction. -/
structure static_probe_map where
  table_ : List Slot
deriving DecidableEq

/-- Capacity of the map: the length of the backing array. -/
def capacity (m : static_probe_map) : Nat := m.table_.length

/-- Slot at an index (out-of-range reads, which never occur on the probe
path, give the empty slot). -/
def slotAt (t : List Slot) (i : Nat) : Slot := t.getD i none

/-- Result of a raw hash lookup: the packed word of the matching slot,
absence, or the corruption-guard failure, kept as three distinct
constructors so absence is never conflated with failure. -/
inductive FindResult where
  | found (word : Nat)
  | absent
  | corrupt
deriving DecidableEq, Repr

/-- Modelled from the spec: the probe loop of
`static_probe_map::find_hash`, whose body is not in src/. Walk the linear
probe sequence from the given index: an empty slot reports absence, a slot
storing the probed hash reports its word, any other occupied slot advances
to `(idx + 1) mod capacity`; `fuel` bounds the walk. -/
def findLoop (t : List Slot) (h : Nat) : Nat → Nat → FindResult
  | 0, _ => FindResult.corrupt
  | fuel + 1, idx =>
    match slotAt t idx with
    | none => FindResult.absent
    | some (h', w) =>
      if h' = h then FindResult.found w
      else findLoop t h fuel ((idx + 1) % t.length)

/-- Modelled from the spec: `static_probe_map::find_hash` (body not in
src/). Start at `hash mod capacity` and walk at most capacity probe steps;
exhausting them without termination is the corruption-guard failure
(section 4.3). A zero-capacity table has no well-formed probe path at all,
so the guard fires immediately. -/
def find_hash (m : static_probe_map) (h : Nat) : FindResult :=
  if m.table_.length = 0 then FindResult.corrupt
  else findLoop m.table_ h m.table_.length (h % m.table_.length)

/-- Outcome of `find` on a key: an optional `lm_node`, or the surfaced
corruption failure, distinct from absence. -/
inductive FindOutcome where
  | found (node : lm_node)
  | absent
  | corrupt
deriving DecidableEq, Repr

/-- Interpretation of a raw lookup result as a `find` outcome: a found
word is unpacked into its `lm_node`. -/
def toOutcome : FindResult → FindOutcome
  | FindResult.found w => FindOutcome.found (unpack w)
  | FindResult.absent => FindOutcome.absent
  | FindResult.corrupt => FindOutcome.corrupt

/-- Modelled from the spec: `static_probe_map::find(const token_list&)`
(body not in src/): hash the key and delegate to `find_hash`
(section 4.4). -/
def find (m : static_probe_map) (key : token_list) : FindOutcome :=
  toOutcome (find_hash m (hash key))

/-- The header's inline template `find(begin, end)`: hash the iterator
range with the inline template `hash` and delegate to `find_hash`. -/
def findIter (m : static_probe_map) (tokens : List Nat) : FindOutcome :=
  let hashed := hashIter tokens
  toOutcome (find_hash m hashed)

/-- Build-mode failures of `insert`, surfaced as
`static_probe_map_exception`: the duplicate-key error and the
capacity-exhaustion error, kept distinct. -/
inductive InsertError where
  | duplicateKey
  | capacityExhausted
deriving DecidableEq, Repr

/-- Modelled from the spec: the probe loop of `static_probe_map::insert`
(body not in src/). Walk the same probe sequence as lookup: write the
(hash, word) pair into the first empty slot; meeting the same hash already
stored raises the duplicate-key error (the header: if the hash already
exists, an exception is thrown); exhausting `fuel` probes without an empty
slot is the capacity-exhaustion error. -/
def insertLoop (t : List Slot) (h w : Nat) : Nat → Nat → Except InsertError (List Slot)
  | 0, _ => Except.error InsertError.capacityExhausted
  | fuel + 1, idx =>
    match slotAt t idx with
    | none => Except.ok (t.set idx (some (h, w)))
    | some (h', _) =>
      if h' = h then Except.error InsertError.duplicateKey
      else insertLoop t h w fuel ((idx + 1) % t.length)

/-- Modelled from the spec: `static_probe_map::insert(key, prob, backoff)`
(body not in src/): hash the key, pack the two float bit patterns, and
place them by linear probing from `hash mod capacity`, with at most
capacity probes. On failure the map is returned unchanged inside the
error, matching an exception thrown before any write. -/
def insert (m : static_probe_map) (key : token_list) (prob backoff : Nat) :
    Except InsertError static_probe_map :=
  if m.table_.length = 0 then Except.error InsertError.capacityExhausted
  else
    match insertLoop m.table_ (hash key) (pack prob backoff) m.table_.length
        (hash key % m.table_.length) with
    | Except.ok t => Except.ok ⟨t⟩
    | Except.error e => Except.error e

/-- One construction pass: insert a list of (key, probability, backoff)
entries in order, stopping at the first failure. -/
def insertAll (m : static_probe_map) :
    List (token_list × Nat × Nat) → Except InsertError static_probe_map
  | [] => Except.ok m
  | (k, p, b) :: rest =>
    match insert m k p b with
    | Except.ok m' => insertAll m' rest
    | Except.error e => Except.error e

/-- Modelled from the spec: the fixed target load factor (section 3 gives
approximately 0.80 to 0.90; the constructor body holding the exact policy
is not in src/). Represented exactly as the rational 4/5. -/
def loadFactorNum : Nat := 4

/-- Denominator of the fixed target load factor 4/5. -/
def loadFactorDen : Nat := 5

/-- Modelled from the spec: build-mode capacity sizing, the ceiling of
`num_elems / loadFactor`, so that capacity times the load factor covers
the expected element count. -/
def capacityFor (num_elems : Nat) : Nat :=
  (num_elems * loadFactorDen + (loadFactorNum - 1)) / loadFactorNum

/-- Modelled from the spec: the constructor
`static_probe_map(filename, num_elems)` (body not in src/). The persisted
array found at the file name is embedded as the list of slots it holds.
With `num_elems = 0` the persisted table is opened as-is (load mode, the
header: binary LM files are loaded), no sizing computation; otherwise a
fresh table of `capacityFor num_elems` empty slots is created (build
mode). -/
def construct (persisted : List Slot) (num_elems : Nat) : static_probe_map :=
  if num_elems = 0 then ⟨persisted⟩
  else ⟨List.replicate (capacityFor num_elems) none⟩

/-- Number of occupied slots of a table. -/
def numOccupied (t : List Slot) : Nat := t.countP fun s => s.isSome

/-- Whether the probe walk for hash `h` stops at slot `i`: the slot is
empty or stores `h` itself. Both `find_hash` and `insert` advance past
exactly the slots where this is false. -/
def stopSlot (t : List Slot) (h i : Nat) : Bool :=
  match slotAt t i with
  | none => true
  | some (h', _) => h' = h

lemma stopSlot_eq_false {t : List Slot} {h i : Nat}
    (hs : stopSlot t h i = false) :
    ∃ h' w', slotAt t i = some (h', w') ∧ h' ≠ h := by
  unfold stopSlot at hs
  cases hv : slotAt t i with
  | none => rw [hv] at hs; cases hs
  | some p =>
    obtain ⟨h', w'⟩ := p
    rw [hv] at hs
    simp only [decide_eq_false_iff_not] at hs
    exact ⟨h', w', rfl, hs⟩

lemma stopSlot_eq_true {t : List Slot} {h i : Nat}
    (hs : stopSlot t h i = true) :
    slotAt t i = none ∨ ∃ w, slotAt t i = some (h, w) := by
  unfold stopSlot at hs
  cases hv : slotAt t i with
  | none => exact Or.inl rfl
  | some p =>
    obtain ⟨h', w'⟩ := p
    rw [hv] at hs
    simp only [decide_eq_true_eq] at hs
    exact Or.inr ⟨w', by rw [hs]⟩

lemma slotAt_set_self (t : List Slot) {j : Nat} (hj : j < t.length) (x : Slot) :
    slotAt (t.set j x) j = x := by
  unfold slotAt
  rw [List.getD_eq_getElem (d := none) _ (by simpa using hj)]
  exact List.getElem_set_self _

lemma slotAt_set_ne (t : List Slot) {i j : Nat} (hne : j ≠ i) (x : Slot) :
    slotAt (t.set j x) i = slotAt t i := by
  unfold slotAt
  rcases Nat.lt_or_ge i t.length with hi | hi
  · rw [List.getD_eq_getElem (d := none) _ (by simpa using hi),
      List.getD_eq_getElem (d := none) _ hi]
    exact List.getElem_set_ne hne _
  · rw [List.getD_eq_default _ _ (by simpa using hi), List.getD_eq_default _ _ hi]

lemma slotAt_replicate_none (n i : Nat) :
    slotAt (List.replicate n (none : Slot)) i = none := by
  unfold slotAt
  rcases Nat.lt_or_ge i n with h | h
  · rw [List.getD_eq_getElem (d := none) _ (by simpa using h)]
    exact List.getElem_replicate _ _
  · exact List.getD_eq_default _ _ (by simpa using h)

lemma slotAt_cons_succ (a : Slot) (t : List Slot) (j : Nat) :
    slotAt (a :: t) (j + 1) = slotAt t j := rfl

/-- Advancing the probe index one step commutes with counting steps from
the walk's start. -/
lemma probe_shift (n idx e : Nat) :
    ((idx + 1) % n + e) % n = (idx + (e + 1)) % n := by
  rw [Nat.mod_add_mod]
  congr 1
  omega

lemma findLoop_found_of_path (t : List Slot) (h : Nat) :
    ∀ d fuel idx w₀, idx < t.length → d < fuel →
    (∀ e, e < d → ∃ h' w', slotAt t ((idx + e) % t.length) = some (h', w') ∧ h' ≠ h) →
    slotAt t ((idx + d) % t.length) = some (h, w₀) →
    findLoop t h fuel idx = FindResult.found w₀ := by
  intro d
  induction d with
  | zero =>
    intro fuel idx w₀ hidx hfuel _ hslot
    match fuel, hfuel with
    | fuel + 1, _ =>
      rw [Nat.add_zero, Nat.mod_eq_of_lt hidx] at hslot
      unfold findLoop
      rw [hslot]
      simp
  | succ d ih =>
    intro fuel idx w₀ hidx hfuel hpath hslot
    match fuel, hfuel with
    | fuel + 1, hfuel =>
      obtain ⟨h', w', hs0, hne⟩ := hpath 0 (Nat.succ_pos d)
      rw [Nat.add_zero, Nat.mod_eq_of_lt hidx] at hs0
      have hn : 0 < t.length := Nat.pos_of_ne_zero (by intro hz; omega)
      unfold findLoop
      rw [hs0]
      simp only [hne, if_false]
      apply ih fuel ((idx + 1) % t.length) w₀ (Nat.mod_lt _ hn)
        (Nat.lt_of_succ_lt_succ hfuel)
      · intro e he
        rw [probe_shift]
        exact hpath (e + 1) (Nat.succ_lt_succ he)
      · rw [probe_shift]
        exact hslot

lemma findLoop_absent_of_path (t : List Slot) (h : Nat) :
    ∀ d fuel idx, idx < t.length → d < fuel →
    (∀ e, e < d → ∃ h' w', slotAt t ((idx + e) % t.length) = some (h', w') ∧ h' ≠ h) →
    slotAt t ((idx + d) % t.length) = none →
    findLoop t h fuel idx = FindResult.absent := by
  intro d
  induction d with
  | zero =>
    intro fuel idx hidx hfuel _ hslot
    match fuel, hfuel with
    | fuel + 1, _ =>
      rw [Nat.add_zero, Nat.mod_eq_of_lt hidx] at hslot
      unfold findLoop
      rw [hslot]
  | succ d ih =>
    intro fuel idx hidx hfuel hpath hslot
    match fuel, hfuel with
    | fuel + 1, hfuel =>
      obtain ⟨h', w', hs0, hne⟩ := hpath 0 (Nat.succ_pos d)
      rw [Nat.add_zero, Nat.mod_eq_of_lt hidx] at hs0
      have hn : 0 < t.length := Nat.pos_of_ne_zero (by intro hz; omega)
      unfold findLoop
      rw [hs0]
      simp only [hne, if_false]
      apply ih fuel ((idx + 1) % t.length) (Nat.mod_lt _ hn)
        (Nat.lt_of_succ_lt_succ hfuel)
      · intro e he
        rw [probe_shift]
        exact hpath (e + 1) (Nat.succ_lt_succ he)
      · rw [probe_shift]
        exact hslot

lemma findLoop_corrupt_of_path (t : List Slot) (h : Nat) :
    ∀ fuel idx, idx < t.length →
    (∀ e, e < fuel → ∃ h' w', slotAt t ((idx + e) % t.length) = some (h', w') ∧ h' ≠ h) →
    findLoop t h fuel idx = FindResult.corrupt := by
  intro fuel
  induction fuel with
  | zero => intro idx _ _; rfl
  | succ fuel ih =>
    intro idx hidx hpath
    obtain ⟨h', w', hs0, hne⟩ := hpath 0 (Nat.succ_pos fuel)
    rw [Nat.add_zero, Nat.mod_eq_of_lt hidx] at hs0
    have hn : 0 < t.length := Nat.lt_of_le_of_lt (Nat.zero_le _) hidx
    unfold findLoop
    rw [hs0]
    simp only [hne, if_false]
    apply ih ((idx + 1) % t.length) (Nat.mod_lt _ hn)
    intro e he
    rw [probe_shift]
    exact hpath (e + 1) (Nat.succ_lt_succ he)

lemma insertLoop_empty_of_path (t : List Slot) (h w : Nat) :
    ∀ d fuel idx, idx < t.length → d < fuel →
    (∀ e, e < d → ∃ h' w', slotAt t ((idx + e) % t.length) = some (h', w') ∧ h' ≠ h) →
    slotAt t ((idx + d) % t.length) = none →
    insertLoop t h w fuel idx = Except.ok (t.set ((idx + d) % t.length) (some (h, w))) := by
  intro d
  induction d with
  | zero =>
    intro fuel idx hidx hfuel _ hslot
    match fuel, hfuel with
    | fuel + 1, _ =>
      have hio : (idx + 0) % t.length = idx := by
        rw [Nat.add_zero, Nat.mod_eq_of_lt hidx]
      rw [hio] at hslot ⊢
      unfold insertLoop
      rw [hslot]
  | succ d ih =>
    intro fuel idx hidx hfuel hpath hslot
    match fuel, hfuel with
    | fuel + 1, hfuel =>
      obtain ⟨h', w', hs0, hne⟩ := hpath 0 (Nat.succ_pos d)
      rw [Nat.add_zero, Nat.mod_eq_of_lt hidx] at hs0
      have hn : 0 < t.length := Nat.lt_of_le_of_lt (Nat.zero_le _) hidx
      unfold insertLoop
      rw [hs0]
      simp only [hne, if_false]
      rw [← probe_shift t.length idx d]
      apply ih fuel ((idx + 1) % t.length) (Nat.mod_lt _ hn)
        (Nat.lt_of_succ_lt_succ hfuel)
      · intro e he
        rw [probe_shift]
        exact hpath (e + 1) (Nat.succ_lt_succ he)
      · rw [probe_shift]
        exact hslot

lemma insertLoop_dup_of_path (t : List Slot) (h w : Nat) :
    ∀ d fuel idx w₀, idx < t.length → d < fuel →
    (∀ e, e < d → ∃ h' w', slotAt t ((idx + e) % t.length) = some (h', w') ∧ h' ≠ h) →
    slotAt t ((idx + d) % t.length) = some (h, w₀) →
    insertLoop t h w fuel idx = Except.error InsertError.duplicateKey := by
  intro d
  induction d with
  | zero =>
    intro fuel idx w₀ hidx hfuel _ hslot
    match fuel, hfuel with
    | fuel + 1, _ =>
      rw [Nat.add_zero, Nat.mod_eq_of_lt hidx] at hslot
      unfold insertLoop
      rw [hslot]
      simp
  | succ d ih =>
    intro fuel idx w₀ hidx hfuel hpath hslot
    match fuel, hfuel with
    | fuel + 1, hfuel =>
      obtain ⟨h', w', hs0, hne⟩ := hpath 0 (Nat.succ_pos d)
      rw [Nat.add_zero, Nat.mod_eq_of_lt hidx] at hs0
      have hn : 0 < t.length := Nat.lt_of_le_of_lt (Nat.zero_le _) hidx
      unfold insertLoop
      rw [hs0]
      simp only [hne, if_false]
      apply ih fuel ((idx + 1) % t.length) w₀ (Nat.mod_lt _ hn)
        (Nat.lt_of_succ_lt_succ hfuel)
      · intro e he
        rw [probe_shift]
        exact hpath (e + 1) (Nat.succ_lt_succ he)
      · rw [probe_shift]
        exact hslot

lemma insertLoop_ok_inv (t : List Slot) (h w : Nat) :
    ∀ fuel idx t', idx < t.length → insertLoop t h w fuel idx = Except.ok t' →
    ∃ d, d < fuel ∧ slotAt t ((idx + d) % t.length) = none ∧
      (∀ e, e < d → ∃ h' w', slotAt t ((idx + e) % t.length) = some (h', w') ∧ h' ≠ h) ∧
      t' = t.set ((idx + d) % t.length) (some (h, w)) := by
  intro fuel
  induction fuel with
  | zero => intro idx t' _ hok; cases hok
  | succ fuel ih =>
    intro idx t' hidx hok
    have hn : 0 < t.length := Nat.lt_of_le_of_lt (Nat.zero_le _) hidx
    cases hv : slotAt t idx with
    | none =>
      have hstep : insertLoop t h w (fuel + 1) idx = Except.ok (t.set idx (some (h, w))) := by
        unfold insertLoop
        rw [hv]
      rw [hstep] at hok
      refine ⟨0, Nat.succ_pos _, ?_, ?_, ?_⟩
      · rw [Nat.add_zero, Nat.mod_eq_of_lt hidx]; exact hv
      · intro e he; cases he
      · rw [Nat.add_zero, Nat.mod_eq_of_lt hidx]
        exact (Except.ok.injEq _ _).mp hok.symm
    | some p =>
      obtain ⟨h', w'⟩ := p
      by_cases hne : h' = h
      · have hstep : insertLoop t h w (fuel + 1) idx = Except.error InsertError.duplicateKey := by
          conv_lhs => unfold insertLoop
          rw [hv]
          simp [hne]
        rw [hstep] at hok
        cases hok
      · have hstep : insertLoop t h w (fuel + 1) idx =
            insertLoop t h w fuel ((idx + 1) % t.length) := by
          conv_lhs => unfold insertLoop
          rw [hv]
          simp only [hne, if_false]
        rw [hstep] at hok
        obtain ⟨d, hd, hempty, hpath, ht'⟩ :=
          ih ((idx + 1) % t.length) t' (Nat.mod_lt _ hn) hok
        refine ⟨d + 1, Nat.succ_lt_succ hd, ?_, ?_, ?_⟩
        · rw [← probe_shift]; exact hempty
        · intro e he
          match e, he with
          | 0, _ =>
            rw [Nat.add_zero, Nat.mod_eq_of_lt hidx]
            exact ⟨h', w', hv, hne⟩
          | e + 1, he =>
            rw [← probe_shift]
            exact hpath e (Nat.lt_of_succ_lt_succ he)
        · rw [← probe_shift]; exact ht'

lemma exists_empty_slot (t : List Slot) (hroom : numOccupied t < t.length) :
    ∃ j, j < t.length ∧ slotAt t j = none := by
  by_contra hc
  push_neg at hc
  have hall : ∀ a ∈ t, (fun s : Slot => s.isSome) a = true := by
    intro a ha
    obtain ⟨j, hj, hget⟩ := List.getElem_of_mem ha
    have hne : a ≠ none := by
      intro hnone
      apply hc j hj
      unfold slotAt
      rw [List.getD_eq_getElem (d := (none : Slot)) _ hj, hget]
      exact hnone
    simpa using Option.isSome_iff_ne_none.mpr hne
  have := List.countP_eq_length.mpr hall
  rw [numOccupied] at hroom
  omega

/-- Decision lemma for a probe walk: if some slot within capacity steps of
the start stops the walk for hash `h`, there is a least stopping distance
`d`, every earlier slot on the path is occupied by a different hash, and
the slot at distance `d` is empty or stores `h`. -/
lemma walk_cases (t : List Slot) (h idx : Nat)
    (hstop : ∃ e, e < t.length ∧ stopSlot t h ((idx + e) % t.length) = true) :
    ∃ d, d < t.length ∧
      (∀ e, e < d → ∃ h' w', slotAt t ((idx + e) % t.length) = some (h', w') ∧ h' ≠ h) ∧
      (slotAt t ((idx + d) % t.length) = none ∨
        ∃ w₀, slotAt t ((idx + d) % t.length) = some (h, w₀)) := by
  obtain ⟨e₀, he₀, hstop₀⟩ := hstop
  have hex : ∃ e, stopSlot t h ((idx + e) % t.length) = true := ⟨e₀, hstop₀⟩
  refine ⟨Nat.find hex, ?_, ?_, ?_⟩
  · exact Nat.lt_of_le_of_lt (Nat.find_le hstop₀) he₀
  · intro e he
    exact stopSlot_eq_false (Bool.eq_false_iff.mpr (Nat.find_min hex he))
  · exact stopSlot_eq_true (Nat.find_spec hex)

lemma exists_stop_of_empty (t : List Slot) (h idx : Nat) (hidx : idx < t.length)
    (j : Nat) (hj : j < t.length) (hempty : slotAt t j = none) :
    ∃ e, e < t.length ∧ stopSlot t h ((idx + e) % t.length) = true := by
  have hn : 0 < t.length := Nat.lt_of_le_of_lt (Nat.zero_le _) hidx
  refine ⟨(j + t.length - idx) % t.length, Nat.mod_lt _ hn, ?_⟩
  have hji : (idx + (j + t.length - idx) % t.length) % t.length = j := by
    rw [Nat.add_mod_mod]
    have : idx + (j + t.length - idx) = j + t.length := by omega
    rw [this, Nat.add_mod_right, Nat.mod_eq_of_lt hj]
  rw [hji]
  unfold stopSlot
  rw [hempty]

/-- Well-formedness of a table reached by a construction pass. `placed`:
every occupied slot lies on the linear probe path of its stored hash, with
every earlier slot on that path occupied (insertion stops at the first
empty slot, so the path back to `hash mod capacity` is solid). `uniq`:
each hash occupies at most one slot. -/
structure WF (t : List Slot) : Prop where
  placed : ∀ i h w, i < t.length → slotAt t i = some (h, w) →
    ∃ d, d < t.length ∧ i = (h % t.length + d) % t.length ∧
      ∀ e, e < d → (slotAt t ((h % t.length + e) % t.length)).isSome = true
  uniq : ∀ i j h w w', i < t.length → j < t.length →
    slotAt t i = some (h, w) → slotAt t j = some (h, w') → i = j

lemma WF_replicate (n : Nat) : WF (List.replicate n (none : Slot)) := by
  constructor
  · intro i h w _ hslot
    rw [slotAt_replicate_none] at hslot
    cases hslot
  · intro i j h w w' _ _ hslot
    rw [slotAt_replicate_none] at hslot
    cases hslot

lemma numOccupied_replicate (n : Nat) :
    numOccupied (List.replicate n (none : Slot)) = 0 := by
  induction n with
  | zero => rfl
  | succ n ih =>
    unfold numOccupied at ih ⊢
    rw [List.replicate_succ, List.countP_cons]
    simp [ih]

/-- Cancellation along a probe path: two distances below capacity that
land on the same slot are equal. -/
lemma path_inj {n a d e : Nat} (hd : d < n) (he : e < n)
    (heq : (a + e) % n = (a + d) % n) : e = d := by
  have h1 : (a + e) % n = (a % n + e % n) % n := by rw [Nat.add_mod]
  have h2 : (a + d) % n = (a % n + d % n) % n := by rw [Nat.add_mod]
  have he' : e % n = e := Nat.mod_eq_of_lt he
  have hd' : d % n = d := Nat.mod_eq_of_lt hd
  have hmod : e ≡ d [MOD n] := by
    have : a + e ≡ a + d [MOD n] := heq
    exact Nat.ModEq.add_left_cancel' a this
  have := hmod
  unfold Nat.ModEq at this
  omega

/-- Occupied slots of a well-formed table carry pairwise-distinct hashes
along any one probe path strictly before the hash's own slot. -/
lemma path_slots_ne (t : List Slot) (hwf : WF t) {i h w d : Nat}
    (hi : i < t.length) (hslot : slotAt t i = some (h, w))
    (hd : d < t.length) (hpd : i = (h % t.length + d) % t.length)
    (hpath : ∀ e, e < d → (slotAt t ((h % t.length + e) % t.length)).isSome = true) :
    ∀ e, e < d → ∃ h' w',
      slotAt t ((h % t.length + e) % t.length) = some (h', w') ∧ h' ≠ h := by
  intro e he
  have hsome := hpath e he
  set p := (h % t.length + e) % t.length with hp
  cases hv : slotAt t p with
  | none => rw [hv] at hsome; cases hsome
  | some q =>
    obtain ⟨h', w'⟩ := q
    refine ⟨h', w', rfl, ?_⟩
    intro hhe
    subst hhe
    have hn : 0 < t.length := Nat.lt_of_le_of_lt (Nat.zero_le _) hi
    have hplt : p < t.length := by rw [hp]; exact Nat.mod_lt _ hn
    have hpi : p = i := hwf.uniq p i h' w' w hplt hi hv hslot
    rw [hpd] at hpi
    have := path_inj (n := t.length) hd (Nat.lt_trans he hd) hpi
    omega

/-- A hash stored in a well-formed table is found by `find_hash`, with
exactly its stored word. -/
lemma find_hash_found_of_mem (t : List Slot) (hwf : WF t) {i h w : Nat}
    (hi : i < t.length) (hslot : slotAt t i = some (h, w)) :
    find_hash ⟨t⟩ h = FindResult.found w := by
  have hn : 0 < t.length := Nat.lt_of_le_of_lt (Nat.zero_le _) hi
  obtain ⟨d, hd, hpd, hpath⟩ := hwf.placed i h w hi hslot
  unfold find_hash
  rw [if_neg (Nat.pos_iff_ne_zero.mp hn)]
  apply findLoop_found_of_path t h d t.length (h % t.length) w
    (Nat.mod_lt _ hn) hd
  · exact path_slots_ne t hwf hi hslot hd hpd hpath
  · rw [← hpd]; exact hslot

/-- A hash stored in a well-formed table makes a fresh `insert` of the
same hash fail with the duplicate-key error. -/
lemma insert_dup_of_mem (t : List Slot) (hwf : WF t) {i h w₀ : Nat}
    (hi : i < t.length) (hslot : slotAt t i = some (h, w₀))
    (key : token_list) (hk : hash key = h) (p b : Nat) :
    insert ⟨t⟩ key p b = Except.error InsertError.duplicateKey := by
  have hn : 0 < t.length := Nat.lt_of_le_of_lt (Nat.zero_le _) hi
  obtain ⟨d, hd, hpd, hpath⟩ := hwf.placed i h w₀ hi hslot
  unfold insert
  rw [if_neg (Nat.pos_iff_ne_zero.mp hn)]
  rw [hk]
  rw [insertLoop_dup_of_path t h (pack p b) d t.length (h % t.length) w₀
    (Nat.mod_lt _ hn) hd
    (path_slots_ne t hwf hi hslot hd hpd hpath)
    (by rw [← hpd]; exact hslot)]

/-- A hash stored nowhere in a well-formed, not-full table is reported
absent by `find_hash`. -/
lemma find_hash_absent_of_fresh (t : List Slot) (h : Nat)
    (hfresh : ∀ i w, i < t.length → slotAt t i ≠ some (h, w))
    (hroom : numOccupied t < t.length) :
    find_hash ⟨t⟩ h = FindResult.absent := by
  have hn : 0 < t.length := Nat.lt_of_le_of_lt (Nat.zero_le _) hroom
  obtain ⟨j, hj, hempty⟩ := exists_empty_slot t hroom
  have hidx : h % t.length < t.length := Nat.mod_lt _ hn
  obtain ⟨d, hd, hpath, hstop⟩ := walk_cases t h (h % t.length)
    (exists_stop_of_empty t h (h % t.length) hidx j hj hempty)
  unfold find_hash
  rw [if_neg (Nat.pos_iff_ne_zero.mp hn)]
  cases hstop with
  | inl hnone =>
    exact findLoop_absent_of_path t h d t.length (h % t.length) hidx hd hpath hnone
  | inr hfound =>
    obtain ⟨w₀, hw₀⟩ := hfound
    exact absurd hw₀ (hfresh _ w₀ (Nat.mod_lt _ hn))

/-- Lookup on a not-full table never trips the corruption guard, for any
hash: the probe walk always terminates at an empty or matching slot. -/
lemma find_hash_ne_corrupt (t : List Slot) (hroom : numOccupied t < t.length)
    (h : Nat) : find_hash ⟨t⟩ h ≠ FindResult.corrupt := by
  have hn : 0 < t.length := Nat.lt_of_le_of_lt (Nat.zero_le _) hroom
  obtain ⟨j, hj, hempty⟩ := exists_empty_slot t hroom
  have hidx : h % t.length < t.length := Nat.mod_lt _ hn
  obtain ⟨d, hd, hpath, hstop⟩ := walk_cases t h (h % t.length)
    (exists_stop_of_empty t h (h % t.length) hidx j hj hempty)
  unfold find_hash
  rw [if_neg (Nat.pos_iff_ne_zero.mp hn)]
  cases hstop with
  | inl hnone =>
    rw [findLoop_absent_of_path t h d t.length (h % t.length) hidx hd hpath hnone]
    intro hc
    cases hc
  | inr hfound =>
    obtain ⟨w₀, hw₀⟩ := hfound
    rw [findLoop_found_of_path t h d t.length (h % t.length) w₀ hidx hd hpath hw₀]
    intro hc
    cases hc

lemma numOccupied_set (x : Nat × Nat) :
    ∀ (t : List Slot) (j : Nat), j < t.length → slotAt t j = none →
    numOccupied (t.set j (some x)) = numOccupied t + 1 := by
  intro t
  induction t with
  | nil => intro j hj _; cases hj
  | cons a t ih =>
    intro j hj hempty
    match j with
    | 0 =>
      have ha : a = none := hempty
      subst ha
      unfold numOccupied
      rw [List.set_cons_zero, List.countP_cons, List.countP_cons]
      simp
    | j + 1 =>
      rw [slotAt_cons_succ] at hempty
      have hj' : j < t.length := Nat.lt_of_succ_lt_succ hj
      unfold numOccupied at ih ⊢
      rw [List.set_cons_succ, List.countP_cons, List.countP_cons, ih j hj' hempty]
      omega

/-- Writing a fresh hash into an empty slot reached by its own probe walk
preserves well-formedness. -/
lemma WF_set (t : List Slot) (hwf : WF t) {h w d : Nat} (hd : d < t.length)
    (hpath : ∀ e, e < d →
      ∃ h' w', slotAt t ((h % t.length + e) % t.length) = some (h', w') ∧ h' ≠ h)
    (_hempty : slotAt t ((h % t.length + d) % t.length) = none)
    (hfresh : ∀ i w', i < t.length → slotAt t i ≠ some (h, w')) :
    WF (t.set ((h % t.length + d) % t.length) (some (h, w))) := by
  have hn : 0 < t.length := Nat.lt_of_le_of_lt (Nat.zero_le _) hd
  set j := (h % t.length + d) % t.length with hj
  have hjlt : j < t.length := by rw [hj]; exact Nat.mod_lt _ hn
  set t₂ := t.set j (some (h, w)) with ht₂
  have hlen : t₂.length = t.length := List.length_set t j _
  have hslot₂ : ∀ i, i ≠ j → slotAt t₂ i = slotAt t i := by
    intro i hne
    exact slotAt_set_ne t (fun hh => hne hh.symm) _
  have hslotj : slotAt t₂ j = some (h, w) := slotAt_set_self t hjlt _
  have hsome₂ : ∀ i, (slotAt t i).isSome = true → (slotAt t₂ i).isSome = true := by
    intro i hi
    by_cases hij : i = j
    · rw [hij, hslotj]; rfl
    · rw [hslot₂ i hij]; exact hi
  constructor
  · intro i h₁ w₁ hi hslot
    rw [hlen] at hi
    by_cases hij : i = j
    · rw [hij, hslotj] at hslot
      have hh : h₁ = h := by
        have := (Option.some.injEq _ _).mp hslot
        exact ((Prod.mk.injEq _ _ _ _).mp this).1.symm
      refine ⟨d, by rw [hlen]; exact hd, ?_, ?_⟩
      · rw [hlen, hij, hh]
      · intro e he
        rw [hlen, hh]
        by_cases hpj : (h % t.length + e) % t.length = j
        · rw [hpj, hslotj]; rfl
        · rw [hslot₂ _ hpj]
          obtain ⟨h', w', hs, _⟩ := hpath e he
          rw [hs]; rfl
    · rw [hslot₂ i hij] at hslot
      obtain ⟨d₁, hd₁, hpd₁, hpath₁⟩ := hwf.placed i h₁ w₁ hi hslot
      refine ⟨d₁, by rw [hlen]; exact hd₁, by rw [hlen]; exact hpd₁, ?_⟩
      intro e he
      rw [hlen]
      exact hsome₂ _ (hpath₁ e he)
  · intro i₁ i₂ h₁ w₁ w₂ hi₁ hi₂ hs₁ hs₂
    rw [hlen] at hi₁ hi₂
    by_cases h2j : i₂ = j
    · by_cases h1j : i₁ = j
      · rw [h1j, h2j]
      · rw [h2j, hslotj] at hs₂
        have hh : h₁ = h := by
          have := (Option.some.injEq _ _).mp hs₂
          exact ((Prod.mk.injEq _ _ _ _).mp this).1.symm
        rw [hslot₂ i₁ h1j, hh] at hs₁
        exact absurd hs₁ (hfresh i₁ w₁ hi₁)
    · by_cases h1j : i₁ = j
      · rw [h1j, hslotj] at hs₁
        have hh : h₁ = h := by
          have := (Option.some.injEq _ _).mp hs₁
          exact ((Prod.mk.injEq _ _ _ _).mp this).1.symm
        rw [hslot₂ i₂ h2j, hh] at hs₂
        exact absurd hs₂ (hfresh i₂ w₂ hi₂)
      · rw [hslot₂ i₁ h1j] at hs₁
        rw [hslot₂ i₂ h2j] at hs₂
        exact hwf.uniq i₁ i₂ h₁ w₁ w₂ hi₁ hi₂ hs₁ hs₂

/-- Full characterization of a successful `insert` on a well-formed table:
it writes the key's hash and packed word into a previously empty slot,
the hash was fresh, well-formedness is preserved, occupancy grows by one,
and every other slot is untouched. -/
lemma insert_ok_inv (t t' : List Slot) (key : token_list) (p b : Nat)
    (hwf : WF t)
    (hok : insert ⟨t⟩ key p b = Except.ok ⟨t'⟩) :
    ∃ j, j < t.length ∧ slotAt t j = none ∧
      t' = t.set j (some (hash key, pack p b)) ∧
      (∀ i w, i < t.length → slotAt t i ≠ some (hash key, w)) ∧
      WF t' ∧ numOccupied t' = numOccupied t + 1 ∧ t'.length = t.length ∧
      (∀ i, i ≠ j → slotAt t' i = slotAt t i) ∧
      slotAt t' j = some (hash key, pack p b) := by
  have hn : 0 < t.length := by
    by_contra hz
    have h0 : t.length = 0 := by omega
    unfold insert at hok
    rw [if_pos h0] at hok
    cases hok
  have hfresh : ∀ i w, i < t.length → slotAt t i ≠ some (hash key, w) := by
    intro i w hi hslot
    rw [insert_dup_of_mem t hwf hi hslot key rfl p b] at hok
    cases hok
  unfold insert at hok
  rw [if_neg (Nat.pos_iff_ne_zero.mp hn)] at hok
  cases hloop : insertLoop t (hash key) (pack p b) t.length (hash key % t.length) with
  | error e => rw [hloop] at hok; cases hok
  | ok t'' =>
    rw [hloop] at hok
    have ht'' : t'' = t' := by
      have := (Except.ok.injEq _ _).mp hok
      exact ((static_probe_map.mk.injEq _ _).mp this)
    subst ht''
    obtain ⟨d, hd, hempty, hpath, hset⟩ := insertLoop_ok_inv t (hash key) (pack p b)
      t.length (hash key % t.length) t'' (Nat.mod_lt _ hn) hloop
    set j := (hash key % t.length + d) % t.length with hj
    have hjlt : j < t.length := by rw [hj]; exact Nat.mod_lt _ hn
    have hwf' : WF t'' := by
      rw [hset]
      exact WF_set t hwf hd hpath hempty hfresh
    refine ⟨j, hjlt, hempty, hset, hfresh, hwf', ?_, ?_, ?_, ?_⟩
    · rw [hset]
      exact numOccupied_set _ t j hjlt hempty
    · rw [hset]
      exact List.length_set t j _
    · intro i hne
      rw [hset]
      exact slotAt_set_ne t (fun hh => hne hh.symm) _
    · rw [hset]
      exact slotAt_set_self t hjlt _

/-- Specification of a whole successful construction pass starting from a
well-formed table: the result is well formed, has the same capacity,
gained exactly one occupied slot per entry, kept every previously stored
slot, and stores every inserted entry's hash with its packed word. -/
lemma insertAll_spec :
    ∀ (entries : List (token_list × Nat × Nat)) (t t' : List Slot),
    WF t → insertAll ⟨t⟩ entries = Except.ok ⟨t'⟩ →
    t'.length = t.length ∧ WF t' ∧
    numOccupied t' = numOccupied t + entries.length ∧
    (∀ i h w, i < t.length → slotAt t i = some (h, w) → slotAt t' i = some (h, w)) ∧
    (∀ e, e ∈ entries → ∃ i, i < t'.length ∧
      slotAt t' i = some (hash e.1, pack e.2.1 e.2.2)) ∧
    (∀ i h w, i < t'.length → slotAt t' i = some (h, w) →
      slotAt t i = some (h, w) ∨ ∃ e, e ∈ entries ∧ h = hash e.1) := by
  intro entries
  induction entries with
  | nil =>
    intro t t' hwf hok
    have ht : t = t' := by
      unfold insertAll at hok
      exact (static_probe_map.mk.injEq _ _).mp ((Except.ok.injEq _ _).mp hok)
    subst ht
    refine ⟨rfl, hwf, by simp, fun i h w _ hs => hs, by simp, ?_⟩
    intro i h w _ hs
    exact Or.inl hs
  | cons e rest ih =>
    intro t t' hwf hok
    obtain ⟨k, p, b⟩ := e
    unfold insertAll at hok
    cases hins : insert ⟨t⟩ k p b with
    | error err => rw [hins] at hok; cases hok
    | ok m₁ =>
      rw [hins] at hok
      obtain ⟨t₁⟩ := m₁
      obtain ⟨j, hjlt, hjempty, ht₁, hfresh, hwf₁, hcount₁, hlen₁, hothers, hslotj⟩ :=
        insert_ok_inv t t₁ k p b hwf hins
      obtain ⟨hlen', hwf', hcount', hkeep', hmem', hsrc'⟩ := ih t₁ t' hwf₁ hok
      have hkeep₀ : ∀ i h w, i < t.length → slotAt t i = some (h, w) →
          slotAt t₁ i = some (h, w) := by
        intro i h w hi hs
        by_cases hij : i = j
        · rw [hij] at hs
          rw [hjempty] at hs
          cases hs
        · rw [hothers i hij]
          exact hs
      refine ⟨by rw [hlen', hlen₁], hwf', ?_, ?_, ?_, ?_⟩
      · rw [hcount', hcount₁]
        simp only [List.length_cons]
        omega
      · intro i h w hi hs
        exact hkeep' i h w (by rw [hlen₁]; exact hi) (hkeep₀ i h w hi hs)
      · intro e' he'
        rcases List.mem_cons.mp he' with he' | he'
        · subst he'
          refine ⟨j, ?_, ?_⟩
          · rw [hlen', hlen₁]; exact hjlt
          · exact hkeep' j _ _ (by rw [hlen₁]; exact hjlt) hslotj
        · exact hmem' e' he'
      · intro i h w hi hs
        rcases hsrc' i h w hi hs with hold | ⟨e', he', hh⟩
        · by_cases hij : i = j
          · rw [hij, hslotj] at hold
            have : h = hash k := by
              have := (Option.some.injEq _ _).mp hold
              exact ((Prod.mk.injEq _ _ _ _).mp this).1.symm
            exact Or.inr ⟨(k, p, b), List.mem_cons_self _ _, this⟩
          · rw [hothers i hij] at hold
            exact Or.inl hold
        · exact Or.inr ⟨e', List.mem_cons_of_mem _ he', hh⟩

/-- Existence half of capacity sizing: starting from a well-formed table
with room for all remaining entries, a pass over pairwise-hash-distinct
entries whose hashes are all fresh succeeds. -/
lemma insertAll_succeeds :
    ∀ (entries : List (token_list × Nat × Nat)) (t : List Slot),
    WF t → 0 < t.length →
    numOccupied t + entries.length ≤ t.length →
    (∀ e, e ∈ entries → ∀ i w, i < t.length → slotAt t i ≠ some (hash e.1, w)) →
    List.Pairwise (fun a b => hash a.1 ≠ hash b.1) entries →
    ∃ m, insertAll ⟨t⟩ entries = Except.ok m := by
  intro entries
  induction entries with
  | nil => intro t _ _ _ _ _; exact ⟨⟨t⟩, rfl⟩
  | cons e rest ih =>
    intro t hwf hn hroom hfresh hpw
    obtain ⟨k, p, b⟩ := e
    have hroom₁ : numOccupied t < t.length := by
      simp only [List.length_cons] at hroom
      omega
    obtain ⟨j, hj, hempty⟩ := exists_empty_slot t hroom₁
    have hidx : hash k % t.length < t.length := Nat.mod_lt _ hn
    obtain ⟨d, hd, hpath, hstop⟩ := walk_cases t (hash k) (hash k % t.length)
      (exists_stop_of_empty t (hash k) (hash k % t.length) hidx j hj hempty)
    have hstop' : slotAt t ((hash k % t.length + d) % t.length) = none := by
      cases hstop with
      | inl hnone => exact hnone
      | inr hfound =>
        obtain ⟨w₀, hw₀⟩ := hfound
        exact absurd hw₀
          (hfresh (k, p, b) (List.mem_cons_self _ _) _ w₀ (Nat.mod_lt _ hn))
    have hloop := insertLoop_empty_of_path t (hash k) (pack p b) d t.length
      (hash k % t.length) hidx hd hpath hstop'
    have hins : insert ⟨t⟩ k p b =
        Except.ok ⟨t.set ((hash k % t.length + d) % t.length)
          (some (hash k, pack p b))⟩ := by
      unfold insert
      rw [if_neg (Nat.pos_iff_ne_zero.mp hn), hloop]
    set t₁ := t.set ((hash k % t.length + d) % t.length)
      (some (hash k, pack p b)) with ht₁
    obtain ⟨j₂, hj₂lt, hj₂empty, ht₁', hfresh₁, hwf₁, hcount₁, hlen₁, hothers₁, hslotj₁⟩ :=
      insert_ok_inv t t₁ k p b hwf hins
    have hfreshrest : ∀ e, e ∈ rest → ∀ i w, i < t₁.length →
        slotAt t₁ i ≠ some (hash e.1, w) := by
      intro e he i w hi hs
      rw [hlen₁] at hi
      rw [ht₁'] at hs
      by_cases hij : i = j₂
      · rw [hij, slotAt_set_self t hj₂lt] at hs
        have hh : hash e.1 = hash k := by
          have := (Option.some.injEq _ _).mp hs
          exact ((Prod.mk.injEq _ _ _ _).mp this).1.symm
        exact absurd hh.symm ((List.pairwise_cons.mp hpw).1 e he)
      · rw [slotAt_set_ne t (fun hx => hij hx.symm)] at hs
        exact hfresh e (List.mem_cons_of_mem _ he) i w hi hs
    have hroomrest : numOccupied t₁ + rest.length ≤ t₁.length := by
      rw [hcount₁, hlen₁]
      simp only [List.length_cons] at hroom
      omega
    obtain ⟨m, hm⟩ := ih t₁ hwf₁ (by rw [hlen₁]; exact hn) hroomrest hfreshrest
      (List.pairwise_cons.mp hpw).2
    refine ⟨m, ?_⟩
    unfold insertAll
    rw [hins]
    exact hm

lemma hashLoop_eq_foldl : ∀ (xs : List Nat) (h : Nat),
    hashLoop h xs = xs.foldl hash_append h := by
  intro xs
  induction xs with
  | nil => intro h; rfl
  | cons x xs ih =>
    intro h
    unfold hashLoop
    rw [List.foldl_cons, ih]

/-- The two hash code paths of the header (the inline iterator-pair
template and the token-list helper) compute the same value on the same
element sequence. -/
lemma hashIter_eq_hash (tokens : List Nat) :
    hashIter tokens = hash ⟨tokens⟩ := by
  unfold hashIter hash
  rw [hashLoop_eq_foldl]

lemma unpack_pack (p b : Nat) :
    unpack (pack p b) = ⟨p % floatMod, b % floatMod⟩ := by
  unfold unpack pack floatMod
  have hp : p % 2 ^ 32 < 2 ^ 32 := Nat.mod_lt _ (by norm_num)
  have hb : b % 2 ^ 32 < 2 ^ 32 := Nat.mod_lt _ (by norm_num)
  rw [lm_node.mk.injEq]
  constructor
  · omega
  · omega

lemma toOutcome_ne_corrupt {r : FindResult} (hr : r ≠ FindResult.corrupt) :
    toOutcome r ≠ FindOutcome.corrupt := by
  cases r with
  | found w => intro hc; cases hc
  | absent => intro hc; cases hc
  | corrupt => exact absurd rfl hr

lemma capacityFor_ge (n : Nat) :
    n * loadFactorDen ≤ capacityFor n * loadFactorNum := by
  unfold capacityFor loadFactorNum loadFactorDen
  omega

lemma capacityFor_gt (n : Nat) (hn : 0 < n) : n < capacityFor n := by
  unfold capacityFor loadFactorNum loadFactorDen
  omega

lemma construct_build (persisted : List Slot) (n : Nat) (hn : n ≠ 0) :
    construct persisted n = ⟨List.replicate (capacityFor n) none⟩ := by
  unfold construct
  rw [if_neg hn]

/-- Invariant established by one whole successful build pass started from
a freshly constructed table: the result is well formed, every entry's
(hash, packed word) pair is stored, occupancy equals the number of
entries, and every stored hash comes from some entry. -/
lemma pass_inv (N : Nat) (entries : List (token_list × Nat × Nat))
    (t' : List Slot) (hN : N ≠ 0)
    (hok : insertAll (construct [] N) entries = Except.ok ⟨t'⟩) :
    WF t' ∧ numOccupied t' = entries.length ∧ t'.length = capacityFor N ∧
    (∀ e, e ∈ entries → ∃ i, i < t'.length ∧
      slotAt t' i = some (hash e.1, pack e.2.1 e.2.2)) ∧
    (∀ i h w, i < t'.length → slotAt t' i = some (h, w) →
      ∃ e, e ∈ entries ∧ h = hash e.1) := by
  rw [construct_build [] N hN] at hok
  obtain ⟨hlen, hwf, hcount, _, hmem, hsrc⟩ :=
    insertAll_spec entries (List.replicate (capacityFor N) none) t'
      (WF_replicate _) hok
  refine ⟨hwf, ?_, ?_, hmem, ?_⟩
  · rw [hcount, numOccupied_replicate]
    omega
  · rw [hlen, List.length_replicate]
  · intro i h w hi hs
    rcases hsrc i h w hi hs with hold | hnew
    · rw [slotAt_replicate_none] at hold
      cases hold
    · exact hnew

/-- External process state visible to the hasher: an arbitrary memory. The
hashing routine of the header is a const member using only the class-wide
seed constant, so it is modelled as a state-passing computation that can
be checked to return its state untouched. -/
structure ExternalState where
  mem : List Nat
deriving DecidableEq, Repr

/-- The hashing loop threaded through external state: folds elements in
order while carrying the ambient state along unchanged. -/
def hashRunLoop : ExternalState → Nat → List Nat → Nat × ExternalState
  | s, h, [] => (h, s)
  | s, h, x :: xs => hashRunLoop s (hash_append h x) xs

/-- One run of the sequence hasher inside a process with external state
`s`: seed, fold the elements, fold the length, return hash and state. -/
def hashRun (s : ExternalState) (tokens : List Nat) : Nat × ExternalState :=
  let r := hashRunLoop s seed_ tokens
  (hash_append r.1 tokens.length, r.2)

lemma hashRunLoop_eq : ∀ (xs : List Nat) (s : ExternalState) (h : Nat),
    hashRunLoop s h xs = (hashLoop h xs, s) := by
  intro xs
  induction xs with
  | nil => intro s h; rfl
  | cons x xs ih =>
    intro s h
    unfold hashRunLoop hashLoop
    rw [ih]

lemma toOutcome_found (w : Nat) :
    toOutcome (FindResult.found w) = FindOutcome.found (unpack w) := rfl

/-- C1: for every set of key sequences inserted by a successful
construction pass into a table sized for that many elements (success
forces their hashes pairwise distinct, else the pass would have raised
the duplicate-key error), every subsequent `find` on each key returns
exactly the (probability, backoff) bit patterns passed to `insert`,
bit for bit. -/
theorem C1_insert_find_roundtrip (entries : List (token_list × Nat × Nat))
    (m : static_probe_map) (k : token_list) (p b : Nat)
    (hne : entries ≠ [])
    (hok : insertAll (construct [] entries.length) entries = Except.ok m)
    (hmem : (k, p, b) ∈ entries) (hp : p < floatMod) (hb : b < floatMod) :
    find m k = FindOutcome.found ⟨p, b⟩ := by
  obtain ⟨t'⟩ := m
  have hN : entries.length ≠ 0 := by
    intro h0
    exact hne (List.length_eq_zero.mp h0)
  obtain ⟨hwf, _, _, hmem', _⟩ := pass_inv entries.length entries t' hN hok
  obtain ⟨i, hi, hslot⟩ := hmem' (k, p, b) hmem
  have hslot' : slotAt t' i = some (hash k, pack p b) := hslot
  unfold find
  rw [find_hash_found_of_mem t' hwf hi hslot', toOutcome_found, unpack_pack,
    Nat.mod_eq_of_lt hp, Nat.mod_eq_of_lt hb]

theorem C1_insert_find_roundtrip_witness :
    ([(token_list.mk [1], 10, 20), (token_list.mk [2], 30, 40)] :
      List (token_list × Nat × Nat)) ≠ [] ∧
    insertAll (construct [] 2) [(token_list.mk [1], 10, 20), (token_list.mk [2], 30, 40)]
      = Except.ok (static_probe_map.mk [some (13719919011817635714, 128849018920), none,
        some (5327768191705317725, 42949672980)]) ∧
    find (static_probe_map.mk [some (13719919011817635714, 128849018920), none,
        some (5327768191705317725, 42949672980)]) (token_list.mk [1])
      = FindOutcome.found ⟨10, 20⟩ :=
  ⟨by decide, by rfl,
    C1_insert_find_roundtrip
      [(token_list.mk [1], 10, 20), (token_list.mk [2], 30, 40)]
      (static_probe_map.mk [some (13719919011817635714, 128849018920), none,
        some (5327768191705317725, 42949672980)])
      (token_list.mk [1]) 10 20 (by decide) (by rfl) (by decide)
      (by decide) (by decide)⟩

/-- C2 counterexample: the claim as stated is false. `[2^64]` and `[0]`
are distinct key sequences with equal 64-bit hashes (the model reduces
each folded element modulo 2^64, as the 64-bit machine arithmetic does);
after a pass inserting only `[0]`, `find` on the never-inserted key
`[2^64]` returns the other key's value as found, not absent — the
hash-collision false-positive mode the spec itself flags in section 9. -/
theorem C2_find_absent_counterexample :
    token_list.mk [2 ^ 64] ≠ token_list.mk [0] ∧
    hash (token_list.mk [2 ^ 64]) = hash (token_list.mk [0]) ∧
    insertAll (construct [] 1) [(token_list.mk [0], 10, 20)]
      = Except.ok (static_probe_map.mk
        [some (14834805078219208120, 42949672980), none]) ∧
    find (static_probe_map.mk [some (14834805078219208120, 42949672980), none])
      (token_list.mk [2 ^ 64]) = FindOutcome.found ⟨10, 20⟩ ∧
    find (static_probe_map.mk [some (14834805078219208120, 42949672980), none])
      (token_list.mk [2 ^ 64]) ≠ FindOutcome.absent :=
  ⟨by decide, by rfl, by rfl, by rfl, by intro hc; cases hc⟩

/-- C2, amended: `find` on a key sequence whose 64-bit hash differs from
the hash of every key inserted by the pass (in particular, one class of
never-inserted keys; a never-inserted key hash-colliding with an
inserted one is instead reported found with that key's value) returns
absent; and `find` never fails — never surfaces the corruption outcome —
for any key at all, at every capacity sized for its entries: absence is
a normal outcome, not an error. -/
theorem C2_find_absent_total (N : Nat) (entries : List (token_list × Nat × Nat))
    (m : static_probe_map) (key : token_list)
    (hN : 0 < N) (hlen : entries.length ≤ N)
    (hok : insertAll (construct [] N) entries = Except.ok m)
    (hnot : ∀ e, e ∈ entries → hash e.1 ≠ hash key) :
    find m key = FindOutcome.absent ∧
    ∀ key' : token_list, find m key' ≠ FindOutcome.corrupt := by
  obtain ⟨t'⟩ := m
  obtain ⟨hwf, hcount, hlen', _, hsrc⟩ :=
    pass_inv N entries t' (Nat.pos_iff_ne_zero.mp hN) hok
  have hroom : numOccupied t' < t'.length := by
    rw [hcount, hlen']
    exact Nat.lt_of_le_of_lt hlen (capacityFor_gt N hN)
  constructor
  · unfold find
    have hfresh : ∀ i w, i < t'.length → slotAt t' i ≠ some (hash key, w) := by
      intro i w hi hs
      obtain ⟨e, he, hh⟩ := hsrc i (hash key) w hi hs
      exact hnot e he hh.symm
    rw [find_hash_absent_of_fresh t' (hash key) hfresh hroom]
    rfl
  · intro key'
    unfold find
    exact toOutcome_ne_corrupt (find_hash_ne_corrupt t' hroom (hash key'))

theorem C2_find_absent_total_witness :
    0 < 2 ∧
    ([(token_list.mk [1], 10, 20)] : List (token_list × Nat × Nat)).length ≤ 2 ∧
    insertAll (construct [] 2) [(token_list.mk [1], 10, 20)]
      = Except.ok (static_probe_map.mk [none, none,
        some (5327768191705317725, 42949672980)]) ∧
    find (static_probe_map.mk [none, none,
        some (5327768191705317725, 42949672980)]) (token_list.mk [2])
      = FindOutcome.absent :=
  ⟨by decide, by decide, by rfl,
    (C2_find_absent_total 2 [(token_list.mk [1], 10, 20)]
      (static_probe_map.mk [none, none, some (5327768191705317725, 42949672980)])
      (token_list.mk [2]) (by decide) (by decide) (by rfl) (by decide)).1⟩

/-- C3: during one construction pass, inserting a key whose 64-bit hash
equals the hash of an already-inserted key fails with the duplicate-key
error, and after the failure the (unchanged) table still maps every
previously inserted key to its original value. -/
theorem C3_duplicate_insert (N : Nat) (entries : List (token_list × Nat × Nat))
    (m : static_probe_map) (k₀ : token_list) (p₀ b₀ : Nat)
    (key : token_list) (p b : Nat)
    (hN : 0 < N)
    (hok : insertAll (construct [] N) entries = Except.ok m)
    (hmem : (k₀, p₀, b₀) ∈ entries)
    (hcollide : hash key = hash k₀) :
    insert m key p b = Except.error InsertError.duplicateKey ∧
    ∀ k p₁ b₁, (k, p₁, b₁) ∈ entries → p₁ < floatMod → b₁ < floatMod →
      find m k = FindOutcome.found ⟨p₁, b₁⟩ := by
  obtain ⟨t'⟩ := m
  obtain ⟨hwf, _, _, hmem', _⟩ :=
    pass_inv N entries t' (Nat.pos_iff_ne_zero.mp hN) hok
  constructor
  · obtain ⟨i, hi, hslot⟩ := hmem' (k₀, p₀, b₀) hmem
    have hslot' : slotAt t' i = some (hash k₀, pack p₀ b₀) := hslot
    exact insert_dup_of_mem t' hwf hi hslot' key hcollide p b
  · intro k p₁ b₁ hm hp hb
    obtain ⟨i, hi, hslot⟩ := hmem' (k, p₁, b₁) hm
    have hslot' : slotAt t' i = some (hash k, pack p₁ b₁) := hslot
    unfold find
    rw [find_hash_found_of_mem t' hwf hi hslot', toOutcome_found, unpack_pack,
      Nat.mod_eq_of_lt hp, Nat.mod_eq_of_lt hb]

theorem C3_duplicate_insert_witness :
    0 < 2 ∧
    insertAll (construct [] 2) [(token_list.mk [1], 10, 20)]
      = Except.ok (static_probe_map.mk [none, none,
        some (5327768191705317725, 42949672980)]) ∧
    hash (token_list.mk [1]) = hash (token_list.mk [1]) ∧
    insert (static_probe_map.mk [none, none,
        some (5327768191705317725, 42949672980)]) (token_list.mk [1]) 99 98
      = Except.error InsertError.duplicateKey :=
  ⟨by decide, by rfl, rfl,
    (C3_duplicate_insert 2 [(token_list.mk [1], 10, 20)]
      (static_probe_map.mk [none, none, some (5327768191705317725, 42949672980)])
      (token_list.mk [1]) 10 20 (token_list.mk [1]) 99 98
      (by decide) (by rfl) (by decide) rfl).1⟩

/-- C4: the sequence hasher folds each element of the token sequence into
the seeded hash state in sequence order (a left fold) and then, after the
last element, folds in the sequence's length as the final value, on both
hash code paths. -/
theorem C4_hash_folds_in_order (tokens : List Nat) :
    hashIter tokens = hash_append (tokens.foldl hash_append seed_) tokens.length ∧
    hash ⟨tokens⟩ = hash_append (tokens.foldl hash_append seed_) tokens.length := by
  constructor
  · unfold hashIter
    rw [hashLoop_eq_foldl]
  · rfl

/-- C5: the sequence hasher is deterministic and pure: two runs in
processes with arbitrary (and possibly different) external state produce
the same 64-bit value from the class-wide fixed seed, the external state
is returned untouched, and the value is the one the header's hash
template computes. -/
theorem C5_hash_deterministic_pure (s₁ s₂ : ExternalState) (tokens : List Nat) :
    (hashRun s₁ tokens).1 = (hashRun s₂ tokens).1 ∧
    (hashRun s₁ tokens).2 = s₁ ∧
    (hashRun s₁ tokens).1 = hashIter tokens := by
  unfold hashRun
  rw [hashRunLoop_eq, hashRunLoop_eq]
  exact ⟨rfl, rfl, rfl⟩

/-- C6: for every expected element count N > 0 and the fixed target load
factor 4/5, the constructed capacity is at least N divided by the load
factor, and one pass inserting exactly N keys with pairwise-distinct
hashes succeeds, in every insertion order (the entry list is arbitrary). -/
theorem C6_capacity_sizing (N : Nat) (hN : 0 < N) :
    N * loadFactorDen ≤ capacityFor N * loadFactorNum ∧
    ∀ entries : List (token_list × Nat × Nat), entries.length = N →
      List.Pairwise (fun a b => hash a.1 ≠ hash b.1) entries →
      ∃ m, insertAll (construct [] N) entries = Except.ok m := by
  refine ⟨capacityFor_ge N, ?_⟩
  intro entries hlen hpw
  rw [construct_build [] N (Nat.pos_iff_ne_zero.mp hN)]
  have hcap : N < capacityFor N := capacityFor_gt N hN
  apply insertAll_succeeds entries (List.replicate (capacityFor N) none)
    (WF_replicate _) ?_ ?_ ?_ hpw
  · rw [List.length_replicate]
    omega
  · rw [numOccupied_replicate, List.length_replicate, hlen]
    omega
  · intro e _ i w _ hs
    rw [slotAt_replicate_none] at hs
    cases hs

theorem C6_capacity_sizing_witness :
    0 < 2 ∧
    2 * loadFactorDen ≤ capacityFor 2 * loadFactorNum ∧
    (insertAll (construct [] 2)
      [(token_list.mk [1], 10, 20), (token_list.mk [2], 30, 40)]).isOk = true := by
  refine ⟨by decide, (C6_capacity_sizing 2 (by decide)).1, ?_⟩
  obtain ⟨m, hm⟩ := (C6_capacity_sizing 2 (by decide)).2
    [(token_list.mk [1], 10, 20), (token_list.mk [2], 30, 40)] (by decide) (by decide)
  rw [hm]
  rfl

/-- C7: when every slot a lookup can probe is occupied by a hash other
than the key's, the walk performs capacity probe steps without
terminating and `find` surfaces the corruption-guard failure, an outcome
distinct from absent and from every found result. -/
theorem C7_corruption_guard (t : List Slot) (key : token_list)
    (hfull : ∀ i, i < t.length →
      ∃ h' w, slotAt t i = some (h', w) ∧ h' ≠ hash key) :
    find ⟨t⟩ key = FindOutcome.corrupt ∧
    FindOutcome.corrupt ≠ FindOutcome.absent ∧
    ∀ node, FindOutcome.corrupt ≠ FindOutcome.found node := by
  refine ⟨?_, ⟨(by intro hc; cases hc), (by intro node hc; cases hc)⟩⟩
  unfold find
  by_cases hz : t.length = 0
  · unfold find_hash
    rw [if_pos hz]
    rfl
  · have hn : 0 < t.length := Nat.pos_of_ne_zero hz
    unfold find_hash
    rw [if_neg hz]
    rw [findLoop_corrupt_of_path t (hash key) t.length (hash key % t.length)
      (Nat.mod_lt _ hn) ?_]
    · rfl
    · intro e _
      exact hfull _ (Nat.mod_lt _ hn)

theorem C7_corruption_guard_witness :
    (∀ i, i < ([some (5, 77)] : List Slot).length →
      ∃ h' w, slotAt [some (5, 77)] i = some (h', w) ∧ h' ≠ hash (token_list.mk [1])) ∧
    find (static_probe_map.mk [some (5, 77)]) (token_list.mk [1])
      = FindOutcome.corrupt := by
  have hfull : ∀ i, i < ([some (5, 77)] : List Slot).length →
      ∃ h' w, slotAt [some (5, 77)] i = some (h', w) ∧ h' ≠ hash (token_list.mk [1]) := by
    intro i hi
    match i, hi with
    | 0, _ => exact ⟨5, 77, rfl, by decide⟩
  exact ⟨hfull, (C7_corruption_guard [some (5, 77)] (token_list.mk [1]) hfull).1⟩

/-- C8: constructing with an expected element count of zero opens the
persisted storage as an existing, already-populated table: the table is
taken verbatim (no sizing computation touches it) and the capacity is
exactly the persisted array's length. -/
theorem C8_load_mode (persisted : List Slot) :
    construct persisted 0 = static_probe_map.mk persisted ∧
    capacity (construct persisted 0) = persisted.length :=
  ⟨rfl, rfl⟩

/-- C10: the two public `find` overloads agree: looking up a token-list
key returns the same outcome as looking up the iterator range over the
same elements, because both hash the same element sequence to the same
value and delegate to the same `find_hash`. -/
theorem C10_find_overloads_agree (m : static_probe_map) (key : token_list) :
    find m key = findIter m key.tokens := by
  unfold find findIter
  rw [hashIter_eq_hash]

end LM
